import Mathlib

/-!
Verification of the holiday calendar generator.

The development shallowly embeds the date-rule evaluators and the
calendar-generation pipeline of `src/generate_calendar/__init__.py`
(Easter, nth-weekday, last-weekday evaluators with their pickle cache,
range validation, assembly, deduplication, event projection, dry-run),
together with the weekend-observance adjustment of
`src/generate_calendar.py`.

Python `datetime.date` values are modelled as year/month/day triples of
naturals; `date.toordinal()` is CPython's `_ymd2ord` closed form, and
`date.weekday()` is `(toordinal + 6) % 7` (0 = Monday .. 6 = Sunday).
Adding or subtracting a `timedelta(days = k)` (k ≥ 0) advances or
rewinds the calendar day k times, which is extensionally the stdlib's
ordinal arithmetic.  Python `//` and `%` on ints are floor
division/modulus; for the positive literal divisors appearing in the
source they coincide with Lean's `Int` division and modulus, which are
used throughout.

The pickle cache maps f-string keys (`easter_{y}`, `nth_{y}_{m}_{w}_{n}`,
`last_{y}_{m}_{w}`) to ISO `YYYY-MM-DD` strings.  The key formats are
prefix-distinct and underscore-separate decimal numbers, so key building
is injective; keys are therefore modelled by an inductive type in
bijection with the key strings, and the stored ISO string by the date it
round-trips to (`strftime`/`strptime` with `%Y-%m-%d` are mutually
inverse on valid dates).
-/

/-- A Python `datetime.date`: year, month (1..12), day (1..31). -/
structure PDate where
  year : Nat
  month : Nat
  day : Nat
deriving DecidableEq, Repr

/-- Python leap-year test (`calendar.isleap`, used by `datetime`). -/
def isLeap (y : Nat) : Bool :=
  y % 4 == 0 && (y % 100 != 0 || y % 400 == 0)

/-- CPython `_days_in_month`: length of a month. -/
def daysInMonth (y m : Nat) : Nat :=
  match m with
  | 2 => if isLeap y then 29 else 28
  | 4 | 6 | 9 | 11 => 30
  | _ => 31

/-- CPython `_days_before_month`: days in the year preceding month `m`. -/
def daysBeforeMonth (y m : Nat) : Nat :=
  (match m with
   | 1 => 0 | 2 => 31 | 3 => 59 | 4 => 90 | 5 => 120 | 6 => 151
   | 7 => 181 | 8 => 212 | 9 => 243 | 10 => 273 | 11 => 304 | _ => 334)
  + (if 2 < m && isLeap y then 1 else 0)

/-- CPython `_days_before_year`: days before January 1st of year `y`. -/
def daysBeforeYear (y : Nat) : Nat :=
  (y - 1) * 365 + (y - 1) / 4 - (y - 1) / 100 + (y - 1) / 400

/-- CPython `_ymd2ord` / `date.toordinal`: day number with 0001-01-01 = 1. -/
def PDate.toOrdinal (d : PDate) : Nat :=
  daysBeforeYear d.year + daysBeforeMonth d.year d.month + d.day

/-- Python `date.weekday()`: 0 = Monday .. 6 = Sunday. -/
def PDate.weekday (d : PDate) : Nat :=
  (d.toOrdinal + 6) % 7

/-- Structural validity of a date triple (what `datetime(y, m, d)` accepts). -/
def PDate.validb (d : PDate) : Bool :=
  1 ≤ d.year && 1 ≤ d.month && d.month ≤ 12 && 1 ≤ d.day
    && d.day ≤ daysInMonth d.year d.month

/-- The calendar day after `d`. -/
def PDate.next (d : PDate) : PDate :=
  if d.day < daysInMonth d.year d.month then ⟨d.year, d.month, d.day + 1⟩
  else if d.month < 12 then ⟨d.year, d.month + 1, 1⟩
  else ⟨d.year + 1, 1, 1⟩

/-- The calendar day before `d`. -/
def PDate.prev (d : PDate) : PDate :=
  if 1 < d.day then ⟨d.year, d.month, d.day - 1⟩
  else if 1 < d.month then ⟨d.year, d.month - 1, daysInMonth d.year (d.month - 1)⟩
  else ⟨d.year - 1, 12, 31⟩

/-- Python `date + timedelta(days = n)` for `n ≥ 0`. -/
def PDate.addDays (d : PDate) : Nat → PDate
  | 0 => d
  | n + 1 => (d.addDays n).next

/-- Python `date - timedelta(days = n)` for `n ≥ 0`. -/
def PDate.subDays (d : PDate) : Nat → PDate
  | 0 => d
  | n + 1 => (d.subDays n).prev

/-- Cache keys, in bijection with the f-string keys of the source
(`easter_{year}`, `nth_{year}_{month}_{weekday}_{nth}`,
`last_{year}_{month}_{weekday}`). -/
inductive CacheKey where
  | easter (year : Nat)
  | nth (year month weekday nth : Nat)
  | last (year month weekday : Nat)
deriving DecidableEq, Repr

/-- The pickle cache: keys to stored dates (ISO strings in the source). -/
def Cache := List (CacheKey × PDate)

/-- Python `cache_key in cache` / `cache[cache_key]` (later assignments
shadow earlier ones, so the in-memory dict is the front of the list). -/
def cacheLookup (c : Cache) (k : CacheKey) : Option PDate :=
  match c with
  | [] => none
  | (k', v) :: rest => if k' = k then some v else cacheLookup rest k

/-- Python `cache[key] = value`. -/
def cacheInsert (c : Cache) (k : CacheKey) (v : PDate) : Cache :=
  (k, v) :: c

/-- The closed-form Easter arithmetic of `get_easter_sunday` (cache-miss
branch), returning the computed `(month, day)` pair.  All divisors are
positive literals, so Lean `Int` division/modulus agree with Python. -/
def easterMD (year : Int) : Int × Int :=
  let a := year % 19
  let b := year / 100
  let c := year % 100
  let d := b / 4
  let e := b % 4
  let f := (b + 8) / 25
  let g := (b - f + 1) / 3
  let h := (19 * a + b - d - g + 15) % 30
  let i := c / 4
  let k := c % 4
  let offsetL := (32 + 2 * e + 2 * i - h - k) % 7
  let m := (a + 11 * h + 22 * offsetL) / 451
  let month := (h + offsetL - 7 * m + 114) / 31
  let day := (h + offsetL - 7 * m + 114) % 31 + 1
  (month, day)

/-- `datetime(year, month, day).date()` built from the Easter arithmetic. -/
def easterDate (year : Nat) : PDate :=
  ⟨year, (easterMD year).1.toNat, (easterMD year).2.toNat⟩

/-- `get_easter_sunday(year, cache)`: consult the cache, otherwise compute
and record.  Returns the date together with the updated cache (the source
mutates the dict in place). -/
def get_easter_sunday (year : Nat) (cache : Cache) : PDate × Cache :=
  match cacheLookup cache (.easter year) with
  | some d => (d, cache)
  | none => (easterDate year, cacheInsert cache (.easter year) (easterDate year))

/-- Cache-miss branch of `get_nth_weekday`: first occurrence of `weekday`
on/after the 1st (offset `(weekday - first_day.weekday() + 7) % 7` days),
plus `nth - 1` whole weeks. -/
def nthWeekdayDate (year month weekday nth : Nat) : PDate :=
  let firstDay : PDate := ⟨year, month, 1⟩
  let offset := (((weekday : Int) - (firstDay.weekday : Int) + 7) % 7).toNat
  let firstWeekday := firstDay.addDays offset
  firstWeekday.addDays (7 * (nth - 1))

/-- `get_nth_weekday(year, month, weekday, nth, cache)`. -/
def get_nth_weekday (year month weekday nth : Nat) (cache : Cache) :
    PDate × Cache :=
  match cacheLookup cache (.nth year month weekday nth) with
  | some d => (d, cache)
  | none =>
      (nthWeekdayDate year month weekday nth,
       cacheInsert cache (.nth year month weekday nth)
         (nthWeekdayDate year month weekday nth))

/-- Cache-miss branch of `get_last_weekday`: the 1st of the following
month (December rolls to January of the next year) minus one day, then
back `(last_day.weekday() - weekday + 7) % 7` days. -/
def lastWeekdayDate (year month weekday : Nat) : PDate :=
  let nextMonth := month % 12 + 1
  let nextYear := if nextMonth ≠ 1 then year else year + 1
  let lastDay := (PDate.mk nextYear nextMonth 1).subDays 1
  let daysToSubtract := (((lastDay.weekday : Int) - (weekday : Int) + 7) % 7).toNat
  lastDay.subDays daysToSubtract

/-- `get_last_weekday(year, month, weekday, cache)`. -/
def get_last_weekday (year month weekday : Nat) (cache : Cache) :
    PDate × Cache :=
  match cacheLookup cache (.last year month weekday) with
  | some d => (d, cache)
  | none =>
      (lastWeekdayDate year month weekday,
       cacheInsert cache (.last year month weekday)
         (lastWeekdayDate year month weekday))

/-- `adjust_for_observance` (from `src/generate_calendar.py`): Saturday
shifts one day earlier, Sunday one day later, weekdays unchanged.  The
source round-trips through ISO strings; the model works on the dates
they denote. -/
def adjust_for_observance (d : PDate) : PDate :=
  if d.weekday = 5 then d.prev
  else if d.weekday = 6 then d.next
  else d

/-- The observance allow-list of `generate_calendar`
(`src/generate_calendar.py`, lines 201-206). -/
def observanceNames : List String :=
  ["New Year's Day", "Independence Day", "Veterans Day", "Christmas Day"]

/-- The date emitted for holiday `name` computed as `d`
(`src/generate_calendar.py`, lines 200-207): observance adjustment is
applied exactly when the name is on the allow-list. -/
def observedDate (name : String) (d : PDate) : PDate :=
  if name ∈ observanceNames then adjust_for_observance d else d

/-- A `federal_holidays` entry: `day` present ⇒ fixed date; `last`
present ⇒ last weekday; otherwise nth weekday. -/
inductive FedShape where
  | fixed (day : Nat)
  | last (weekday : Nat)
  | nth (weekday nth : Nat)
deriving DecidableEq, Repr

structure FedRule where
  name : String
  month : Nat
  shape : FedShape
deriving DecidableEq, Repr

/-- A `manual_holidays` entry. -/
structure ManualRule where
  name : String
  month : Nat
  day : Nat
  description : Option String := none
  reminderDays : Option Nat := none
deriving DecidableEq, Repr

/-- The `type` tag of a `calculated_holidays` entry. -/
inductive CalcType where
  | easter
  | nthWeekday (month weekday nth : Nat)
deriving DecidableEq, Repr

/-- A `calculated_holidays` entry. -/
structure CalcRule where
  name : String
  type : CalcType
  description : Option String := none
  reminderDays : Option Nat := none
deriving DecidableEq, Repr

/-- The holiday definition file (`holidays.json`). -/
structure HolidayConfig where
  approved : List String
  manual : List ManualRule
  calculated : List CalcRule
  federal : List FedRule

/-- A resolved holiday: one rule instantiated for one year
(the dicts appended to the `holidays` list in the source). -/
structure Resolved where
  name : String
  date : PDate
  description : Option String := none
  reminderDays : Option Nat := none
deriving DecidableEq, Repr

/-- One iteration of the `get_federal_holidays` loop: dispatch on which
key is present (`day` / `last` / nth) and append the resolved holiday,
threading the cache. -/
def fedStep (year : Nat) (acc : List Resolved × Cache) (holiday : FedRule) :
    List Resolved × Cache :=
  match holiday.shape with
  | .fixed day =>
      (acc.1 ++ [⟨holiday.name, ⟨year, holiday.month, day⟩, none, none⟩], acc.2)
  | .last weekday =>
      let r := get_last_weekday year holiday.month weekday acc.2
      (acc.1 ++ [⟨holiday.name, r.1, none, none⟩], r.2)
  | .nth weekday nth =>
      let r := get_nth_weekday year holiday.month weekday nth acc.2
      (acc.1 ++ [⟨holiday.name, r.1, none, none⟩], r.2)

/-- `get_federal_holidays(year, federal_holidays)` from `__init__.py`:
loads the cache afresh (`cache = load_cache()`), threads it through the
loop, and discards it on return (it is never saved). -/
def get_federal_holidays (year : Nat) (federal : List FedRule)
    (diskCache : Cache) : List Resolved :=
  (federal.foldl (fedStep year) ([], diskCache)).1

/-- One iteration of the `CALCULATED_HOLIDAYS` loop: dispatch on the
`type` tag, propagate `description` and `reminder_days`. -/
def calcStep (year : Nat) (acc : List Resolved × Cache) (holiday : CalcRule) :
    List Resolved × Cache :=
  match holiday.type with
  | .easter =>
      let r := get_easter_sunday year acc.2
      (acc.1 ++ [⟨holiday.name, r.1, holiday.description, holiday.reminderDays⟩], r.2)
  | .nthWeekday month weekday nth =>
      let r := get_nth_weekday year month weekday nth acc.2
      (acc.1 ++ [⟨holiday.name, r.1, holiday.description, holiday.reminderDays⟩], r.2)

/-- The `CALCULATED_HOLIDAYS` loop for one year, threading the in-memory
cache. -/
def calcHolidaysForYear (year : Nat) (calculated : List CalcRule)
    (cache : Cache) : List Resolved × Cache :=
  calculated.foldl (calcStep year) ([], cache)

/-- The `MANUAL_HOLIDAYS` loop for one year
(`f"{YEAR}-{month:02d}-{day:02d}"` denotes the date triple). -/
def manualHolidaysForYear (year : Nat) (manual : List ManualRule) :
    List Resolved :=
  manual.map fun holiday =>
    ⟨holiday.name, ⟨year, holiday.month, holiday.day⟩,
      holiday.description, holiday.reminderDays⟩

/-- The year loop of `generate_calendar` (`__init__.py`, lines 185-219):
federal holidays (fresh disk cache each year), then manual, then
calculated (threading the in-memory cache), appended per year. -/
def assembleYears (cfg : HolidayConfig) (diskCache : Cache) :
    List Nat → Cache → List Resolved × Cache
  | [], mem => ([], mem)
  | y :: ys, mem =>
      let fed := get_federal_holidays y cfg.federal diskCache
      let cstep := calcHolidaysForYear y cfg.calculated mem
      let manual := manualHolidaysForYear y cfg.manual
      let rest := assembleYears cfg diskCache ys cstep.2
      (fed ++ manual ++ cstep.1 ++ rest.1, rest.2)

/-- An iCalendar `VALARM` sub-component as built by the source. -/
structure PAlarm where
  triggerDays : Int
  action : String
  description : String
deriving DecidableEq, Repr

/-- An iCalendar `VEVENT` as built by the source. -/
structure PEvent where
  summary : String
  dtstart : PDate
  uid : String
  description : Option String
  alarms : List PAlarm
  rruleYearly : Bool
deriving DecidableEq, Repr

/-- Zero-padded decimal, for `strftime` fields. -/
def padNat (width n : Nat) : String :=
  let s := toString n
  String.mk (List.replicate (width - s.length) '0') ++ s

/-- `date.strftime("%Y-%m-%d")`. -/
def formatIso (d : PDate) : String :=
  padNat 4 d.year ++ "-" ++ padNat 2 d.month ++ "-" ++ padNat 2 d.day

/-- The recurring-event allow-list (`fixed_holidays`, `__init__.py`
line 229; used only for the yearly `rrule`). -/
def fixedHolidays : List String :=
  ["New Year's Day", "Independence Day", "Christmas Day"]

/-- The `Event()` built for one approved holiday
(`__init__.py`, lines 247-260). -/
def buildEvent (h : Resolved) : PEvent :=
  { summary := h.name
    dtstart := h.date
    uid := formatIso h.date ++ "-" ++ h.name ++ "@mycalendar"
    description := h.description
    alarms :=
      match h.reminderDays with
      | some r => [⟨-(r : Int), "DISPLAY", "Reminder: " ++ h.name ++ " is tomorrow"⟩]
      | none => []
    rruleYearly := fixedHolidays.contains h.name && h.reminderDays.isNone }

/-- The `(name, date-string)` deduplication key of an entry; the ISO
formatting of distinct dates is injective, so the pair keeps the date. -/
def keyOf (h : Resolved) : String × PDate :=
  (h.name, h.date)

/-- The event-building loop of `generate_calendar`
(`__init__.py`, lines 230-262): skip entries whose date string does not
parse, skip `(name, date)` pairs already seen (with a warning), record
fresh pairs in `seen`, and emit an event for approved names.
Returns (events, duplicate warnings, final seen-set). -/
def emitLoop (approved : List String) :
    List Resolved → List (String × PDate) →
    List PEvent × List (String × PDate) × List (String × PDate)
  | [], seen => ([], [], seen)
  | h :: rest, seen =>
      if ¬ h.date.validb then emitLoop approved rest seen
      else if keyOf h ∈ seen then
        let r := emitLoop approved rest seen
        (r.1, keyOf h :: r.2.1, r.2.2)
      else
        let r := emitLoop approved rest (keyOf h :: seen)
        (if h.name ∈ approved then buildEvent h :: r.1 else r.1, r.2.1, r.2.2)

inductive GenError where
  | invalidRange
deriving DecidableEq, Repr

/-- The observable outcome of a successful `generate_calendar` run:
the events added to the calendar, the duplicate warnings, the cache
passed to `save_cache` (always executed on this path), and whether the
iCal file was written. -/
structure GenResult where
  events : List PEvent
  dupWarnings : List (String × PDate)
  savedCache : Cache
  wroteOutput : Bool

/-- `range(start_year, end_year + 1)`. -/
def yearRange (startYear endYear : Nat) : List Nat :=
  (List.range (endYear + 1 - startYear)).map (startYear + ·)

/-- `generate_calendar(start_year, end_year, dry_run, verbose,
holidays_file)` from `__init__.py`: validate the range (exit nonzero on
failure, before the holiday file or cache is touched), assemble the
multi-year list, save the cache, run the event loop, and write the iCal
file unless `dry_run`.  `verbose` only changes the log level. -/
def generate_calendar (startYear endYear : Nat) (dryRun : Bool)
    (verbose : Bool) (cfg : HolidayConfig) (diskCache : Cache) :
    Except GenError GenResult :=
  let _ := verbose
  if startYear > endYear ∨ startYear < 1900 ∨ endYear > 2100 then
    .error .invalidRange
  else
    let assembled := assembleYears cfg diskCache (yearRange startYear endYear) diskCache
    let emitted := emitLoop cfg.approved assembled.1 []
    .ok { events := emitted.1, dupWarnings := emitted.2.1,
          savedCache := assembled.2, wroteOutput := !dryRun }

/-! ### Calendar arithmetic lemmas -/

theorem daysInMonth_ge (y m : Nat) : 28 ≤ daysInMonth y m := by
  unfold daysInMonth
  split <;> first | omega | (split <;> omega)

theorem daysInMonth_le (y m : Nat) : daysInMonth y m ≤ 31 := by
  unfold daysInMonth
  split <;> first | omega | (split <;> omega)

set_option maxHeartbeats 1000000 in
theorem daysBeforeMonth_succ (y m : Nat) (h1 : 1 ≤ m) (h2 : m ≤ 11) :
    daysBeforeMonth y (m + 1) = daysBeforeMonth y m + daysInMonth y m := by
  interval_cases m <;> cases h : isLeap y <;>
    simp [daysBeforeMonth, daysInMonth, h]

theorem isLeap_iff (y : Nat) :
    isLeap y = true ↔ (y % 4 = 0 ∧ (y % 100 ≠ 0 ∨ y % 400 = 0)) := by
  unfold isLeap
  simp

theorem daysBeforeYear_succ (y : Nat) (h : 1 ≤ y) :
    daysBeforeYear (y + 1) =
      daysBeforeYear y + (if isLeap y then 366 else 365) := by
  have s4 : y / 4 = (y - 1) / 4 + (if y % 4 = 0 then 1 else 0) := by
    rcases Nat.decEq (y % 4) 0 with e | e <;> simp [e] <;> omega
  have s100 : y / 100 = (y - 1) / 100 + (if y % 100 = 0 then 1 else 0) := by
    rcases Nat.decEq (y % 100) 0 with e | e <;> simp [e] <;> omega
  have s400 : y / 400 = (y - 1) / 400 + (if y % 400 = 0 then 1 else 0) := by
    rcases Nat.decEq (y % 400) 0 with e | e <;> simp [e] <;> omega
  have d100 : y % 100 = 0 → y % 4 = 0 := by omega
  have d400 : y % 400 = 0 → y % 100 = 0 := by omega
  by_cases hp : y % 4 = 0 ∧ (y % 100 ≠ 0 ∨ y % 400 = 0)
  · rw [if_pos ((isLeap_iff y).mpr hp)]
    unfold daysBeforeYear
    simp only [Nat.add_sub_cancel]
    rw [s4, s100, s400]
    obtain ⟨h4, hor⟩ := hp
    rcases hor with h100 | h400
    · rw [if_pos h4, if_neg h100, if_neg (fun hc => h100 (d400 hc))]
      omega
    · rw [if_pos h4, if_pos (d400 h400), if_pos h400]
      omega
  · rw [if_neg (fun hc => hp ((isLeap_iff y).mp hc))]
    unfold daysBeforeYear
    simp only [Nat.add_sub_cancel]
    rw [s4, s100, s400]
    push_neg at hp
    rcases Nat.decEq (y % 4) 0 with e | e
    · rw [if_neg e, if_neg (fun hc => e (d100 hc)),
        if_neg (fun hc => e (d100 (d400 hc)))]
      omega
    · obtain ⟨h100, h400⟩ := hp e
      rw [if_pos e, if_pos h100, if_neg h400]
      omega

theorem toOrdinal_next (d : PDate) (h : d.validb) :
    d.next.toOrdinal = d.toOrdinal + 1 := by
  have hv : 1 ≤ d.year ∧ 1 ≤ d.month ∧ d.month ≤ 12 ∧ 1 ≤ d.day ∧
      d.day ≤ daysInMonth d.year d.month := by
    unfold PDate.validb at h
    simp only [Bool.and_eq_true, decide_eq_true_eq] at h
    tauto
  unfold PDate.next
  split
  · simp only [PDate.toOrdinal]
    omega
  · next hday =>
    have hde : d.day = daysInMonth d.year d.month := by omega
    split
    · next hm =>
      simp only [PDate.toOrdinal]
      rw [daysBeforeMonth_succ d.year d.month hv.2.1 (by omega)]
      omega
    · next hm =>
      have hm12 : d.month = 12 := by omega
      simp only [PDate.toOrdinal]
      rw [daysBeforeYear_succ d.year hv.1]
      have h31 : daysInMonth d.year 12 = 31 := rfl
      have hdbm : daysBeforeMonth d.year 12 =
          334 + (if isLeap d.year then 1 else 0) := by
        cases hL : isLeap d.year <;> simp [daysBeforeMonth, hL]
      have hdbm1 : daysBeforeMonth (d.year + 1) 1 = 0 := by
        cases hL : isLeap (d.year + 1) <;> simp [daysBeforeMonth, hL]
      rw [hm12] at hde ⊢
      rw [hdbm, hdbm1, hde, h31]
      cases hL : isLeap d.year <;> simp [hL]

theorem toOrdinal_prev (d : PDate) (h : d.validb)
    (h1 : ¬(d.year = 1 ∧ d.month = 1 ∧ d.day = 1)) :
    d.prev.toOrdinal + 1 = d.toOrdinal := by
  have hv : 1 ≤ d.year ∧ 1 ≤ d.month ∧ d.month ≤ 12 ∧ 1 ≤ d.day ∧
      d.day ≤ daysInMonth d.year d.month := by
    unfold PDate.validb at h
    simp only [Bool.and_eq_true, decide_eq_true_eq] at h
    tauto
  unfold PDate.prev
  split
  · simp only [PDate.toOrdinal]
    omega
  · next hday =>
    have hd1 : d.day = 1 := by omega
    split
    · next hm =>
      obtain ⟨m', hm'⟩ : ∃ m', d.month = m' + 1 := ⟨d.month - 1, by omega⟩
      simp only [PDate.toOrdinal, hm', Nat.add_sub_cancel]
      rw [daysBeforeMonth_succ d.year m' (by omega) (by omega)]
      omega
    · next hm =>
      have hm1 : d.month = 1 := by omega
      have hy2 : 2 ≤ d.year := by
        rcases Nat.lt_or_ge d.year 2 with hy | hy
        · exfalso; exact h1 ⟨by omega, hm1, hd1⟩
        · exact hy
      obtain ⟨y', hy'⟩ : ∃ y', d.year = y' + 1 := ⟨d.year - 1, by omega⟩
      simp only [PDate.toOrdinal, hm1, hd1, hy', Nat.add_sub_cancel]
      rw [daysBeforeYear_succ y' (by omega)]
      have hdbm : daysBeforeMonth y' 12 =
          334 + (if isLeap y' then 1 else 0) := by
        cases hL : isLeap y' <;> simp [daysBeforeMonth, hL]
      have hdbm1 : daysBeforeMonth (y' + 1) 1 = 0 := by
        cases hL : isLeap (y' + 1) <;> simp [daysBeforeMonth, hL]
      rw [hdbm, hdbm1]
      cases hL : isLeap y' <;> simp [hL]

theorem addDays_in_month (y m day n : Nat)
    (h2 : day + n ≤ daysInMonth y m) :
    (PDate.mk y m day).addDays n = ⟨y, m, day + n⟩ := by
  induction n with
  | zero => rfl
  | succ k ih =>
      have hk : day + k ≤ daysInMonth y m := by omega
      simp only [PDate.addDays, ih hk, PDate.next]
      rw [if_pos (by omega : day + k < daysInMonth y m)]
      rfl

theorem subDays_in_month (y m day n : Nat) (h : n < day) :
    (PDate.mk y m day).subDays n = ⟨y, m, day - n⟩ := by
  induction n with
  | zero => simp [PDate.subDays]
  | succ k ih =>
      have hk : k < day := by omega
      simp only [PDate.subDays, ih hk, PDate.prev]
      rw [if_pos (by omega : 1 < day - k)]
      rfl

theorem weekday_mk (y m d : Nat) :
    (PDate.mk y m d).weekday =
      (daysBeforeYear y + daysBeforeMonth y m + d + 6) % 7 := rfl

/-- The offset arithmetic `((a - b + 7) % 7).toNat` used by both
weekday evaluators: when `a, b ≤ 6` it is the unique `o ≤ 6`
with `(b + o) % 7 = a`. -/
theorem offset_spec (a b : Nat) (ha : a ≤ 6) (hb : b ≤ 6) :
    (((a : Int) - (b : Int) + 7) % 7).toNat ≤ 6 ∧
      (b + (((a : Int) - (b : Int) + 7) % 7).toNat) % 7 = a := by
  have h : ∀ x : Nat, x < 7 → ∀ y : Nat, y < 7 →
      (((x : Int) - (y : Int) + 7) % 7).toNat ≤ 6 ∧
        (y + (((x : Int) - (y : Int) + 7) % 7).toNat) % 7 = x := by decide
  exact h a (by omega) b (by omega)

/-! ### Occurrences of a weekday within a month -/

/-- The days of `month`/`year` falling on Python weekday `w`. -/
def weekdayDaysIn (y m w : Nat) : Finset Nat :=
  (Finset.Icc 1 (daysInMonth y m)).filter (fun d => (PDate.mk y m d).weekday = w)

/-- The offset computed by `get_nth_weekday` from the 1st of the month to
the first occurrence of `w`. -/
def firstOffset (y m w : Nat) : Nat :=
  (((w : Int) - ((PDate.mk y m 1).weekday : Int) + 7) % 7).toNat

theorem weekday_lt (d : PDate) : d.weekday < 7 := by
  unfold PDate.weekday
  omega

theorem mem_weekdayDaysIn_iff (y m w : Nat) (hw : w ≤ 6) (d : Nat) :
    d ∈ weekdayDaysIn y m w ↔
      1 ≤ d ∧ d ≤ daysInMonth y m ∧
        d % 7 = (firstOffset y m w + 1) % 7 := by
  obtain ⟨hoff6, hoffw⟩ := offset_spec w ((PDate.mk y m 1).weekday) hw
    (by have := weekday_lt (PDate.mk y m 1); omega)
  rw [show ((((w : Int) - ((PDate.mk y m 1).weekday : Int) + 7) % 7).toNat)
      = firstOffset y m w from rfl] at hoff6 hoffw
  have hw1 : (PDate.mk y m 1).weekday =
      (daysBeforeYear y + daysBeforeMonth y m + 1 + 6) % 7 := rfl
  have hwd : (PDate.mk y m d).weekday =
      (daysBeforeYear y + daysBeforeMonth y m + d + 6) % 7 := rfl
  rw [hw1] at hoffw
  unfold weekdayDaysIn
  rw [Finset.mem_filter, Finset.mem_Icc, hwd]
  omega

theorem weekdayDaysIn_eq (y m w : Nat) (hw : w ≤ 6) :
    weekdayDaysIn y m w =
      (Finset.range ((daysInMonth y m - firstOffset y m w + 6) / 7)).image
        (fun k => firstOffset y m w + 1 + 7 * k) := by
  have hN := daysInMonth_ge y m
  obtain ⟨hoff6, _⟩ := offset_spec w ((PDate.mk y m 1).weekday) hw
    (by have := weekday_lt (PDate.mk y m 1); omega)
  rw [show ((((w : Int) - ((PDate.mk y m 1).weekday : Int) + 7) % 7).toNat)
      = firstOffset y m w from rfl] at hoff6
  ext d
  rw [mem_weekdayDaysIn_iff y m w hw d, Finset.mem_image]
  constructor
  · rintro ⟨h1, h2, h3⟩
    refine ⟨(d - firstOffset y m w - 1) / 7, Finset.mem_range.mpr (by omega), by omega⟩
  · rintro ⟨k, hk, rfl⟩
    rw [Finset.mem_range] at hk
    omega

theorem card_weekdayDaysIn (y m w : Nat) (hw : w ≤ 6) :
    (weekdayDaysIn y m w).card =
      (daysInMonth y m - firstOffset y m w + 6) / 7 := by
  rw [weekdayDaysIn_eq y m w hw,
    Finset.card_image_of_injective _ (fun a b hab => by omega),
    Finset.card_range]

/-- `D` is the `n`-th occurrence of weekday `w` in month `m` of year `y`:
it lies in that month, falls on `w`, and exactly `n - 1` days of the
month falling on `w` precede it. -/
def IsNthWeekdayOf (y m w n : Nat) (D : PDate) : Prop :=
  D.year = y ∧ D.month = m ∧ D.day ∈ weekdayDaysIn y m w ∧
    ((weekdayDaysIn y m w).filter (fun d => d < D.day)).card = n - 1

/-- `D` is the last occurrence of weekday `w` in month `m` of year `y`. -/
def IsLastWeekdayOf (y m w : Nat) (D : PDate) : Prop :=
  D.year = y ∧ D.month = m ∧ D.day ∈ weekdayDaysIn y m w ∧
    ∀ d ∈ weekdayDaysIn y m w, d ≤ D.day

@[simp] theorem PDate.year_mk (y m d : Nat) : (PDate.mk y m d).year = y := rfl

@[simp] theorem PDate.month_mk (y m d : Nat) : (PDate.mk y m d).month = m := rfl

@[simp] theorem PDate.day_mk (y m d : Nat) : (PDate.mk y m d).day = d := rfl

theorem nthWeekdayDate_day (y m w n : Nat) (hw : w ≤ 6) (hn : 1 ≤ n)
    (hcount : n ≤ (weekdayDaysIn y m w).card) :
    nthWeekdayDate y m w n = ⟨y, m, firstOffset y m w + 1 + 7 * (n - 1)⟩ := by
  have hN := daysInMonth_ge y m
  obtain ⟨hoff6, _⟩ := offset_spec w ((PDate.mk y m 1).weekday) hw
    (by have := weekday_lt (PDate.mk y m 1); omega)
  rw [show ((((w : Int) - ((PDate.mk y m 1).weekday : Int) + 7) % 7).toNat)
      = firstOffset y m w from rfl] at hoff6
  rw [card_weekdayDaysIn y m w hw] at hcount
  have hday : firstOffset y m w + 1 + 7 * (n - 1) ≤ daysInMonth y m := by omega
  show ((PDate.mk y m 1).addDays (firstOffset y m w)).addDays (7 * (n - 1)) = _
  rw [addDays_in_month y m 1 (firstOffset y m w) (by omega)]
  rw [addDays_in_month y m (1 + firstOffset y m w) (7 * (n - 1)) (by omega)]
  simp only [PDate.mk.injEq, true_and]
  omega

theorem nthWeekday_is_nth (y m w n : Nat) (hw : w ≤ 6) (hn : 1 ≤ n)
    (hcount : n ≤ (weekdayDaysIn y m w).card) :
    IsNthWeekdayOf y m w n (nthWeekdayDate y m w n) := by
  have hN := daysInMonth_ge y m
  obtain ⟨hoff6, _⟩ := offset_spec w ((PDate.mk y m 1).weekday) hw
    (by have := weekday_lt (PDate.mk y m 1); omega)
  rw [show ((((w : Int) - ((PDate.mk y m 1).weekday : Int) + 7) % 7).toNat)
      = firstOffset y m w from rfl] at hoff6
  have hcount' := hcount
  rw [card_weekdayDaysIn y m w hw] at hcount'
  have hday : firstOffset y m w + 1 + 7 * (n - 1) ≤ daysInMonth y m := by omega
  rw [nthWeekdayDate_day y m w n hw hn hcount]
  refine ⟨rfl, rfl, ?_, ?_⟩
  · simp only [PDate.day_mk]
    rw [mem_weekdayDaysIn_iff y m w hw]
    omega
  · simp only [PDate.day_mk]
    have himg : (weekdayDaysIn y m w).filter
        (fun d => d < firstOffset y m w + 1 + 7 * (n - 1)) =
        (Finset.range (n - 1)).image (fun k => firstOffset y m w + 1 + 7 * k) := by
      rw [weekdayDaysIn_eq y m w hw]
      ext x
      rw [Finset.mem_filter, Finset.mem_image, Finset.mem_image]
      constructor
      · rintro ⟨⟨k, hk, rfl⟩, hlt⟩
        rw [Finset.mem_range] at hk
        exact ⟨k, Finset.mem_range.mpr (by omega), rfl⟩
      · rintro ⟨k, hk, rfl⟩
        rw [Finset.mem_range] at hk
        exact ⟨⟨k, Finset.mem_range.mpr (by omega), rfl⟩, by omega⟩
    rw [himg, Finset.card_image_of_injective _ (fun a b hab => by omega),
      Finset.card_range]

theorem lastWeekdayDate_eq (y m w : Nat) (hm1 : 1 ≤ m) (hm2 : m ≤ 12) :
    lastWeekdayDate y m w =
      (PDate.mk y m (daysInMonth y m)).subDays
        ((((PDate.mk y m (daysInMonth y m)).weekday : Int) - (w : Int) + 7) % 7).toNat := by
  have hlast : (PDate.mk (if m % 12 + 1 ≠ 1 then y else y + 1) (m % 12 + 1) 1).subDays 1
      = PDate.mk y m (daysInMonth y m) := by
    rcases Nat.lt_or_ge m 12 with hlt | hge
    · have hmod : m % 12 = m := Nat.mod_eq_of_lt hlt
      rw [if_pos (by omega : m % 12 + 1 ≠ 1)]
      show (PDate.mk y (m % 12 + 1) 1).prev = _
      unfold PDate.prev
      simp only [PDate.year_mk, PDate.month_mk, PDate.day_mk]
      rw [if_neg (by omega), if_pos (by omega)]
      simp [hmod]
    · have hm12 : m = 12 := by omega
      subst hm12
      rw [if_neg (by omega : ¬(12 % 12 + 1 ≠ 1))]
      show (PDate.mk (y + 1) (12 % 12 + 1) 1).prev = _
      unfold PDate.prev
      simp only [PDate.year_mk, PDate.month_mk, PDate.day_mk]
      rw [if_neg (by omega), if_neg (by omega),
        show daysInMonth y 12 = 31 from rfl]
      simp [PDate.mk.injEq]
  simp only [lastWeekdayDate]
  rw [hlast]

theorem lastWeekday_is_last (y m w : Nat) (hm1 : 1 ≤ m) (hm2 : m ≤ 12)
    (hw : w ≤ 6) : IsLastWeekdayOf y m w (lastWeekdayDate y m w) := by
  have hN := daysInMonth_ge y m
  obtain ⟨hk6, hkw⟩ := offset_spec ((PDate.mk y m (daysInMonth y m)).weekday) w
    (by have := weekday_lt (PDate.mk y m (daysInMonth y m)); omega) hw
  set k := ((((PDate.mk y m (daysInMonth y m)).weekday : Int) - (w : Int) + 7) % 7).toNat
    with hkdef
  have hres : lastWeekdayDate y m w = PDate.mk y m (daysInMonth y m - k) := by
    rw [lastWeekdayDate_eq y m w hm1 hm2, ← hkdef,
      subDays_in_month y m (daysInMonth y m) k (by omega)]
  simp only [PDate.weekday, PDate.toOrdinal, PDate.year_mk, PDate.month_mk,
    PDate.day_mk] at hkw
  rw [hres]
  refine ⟨rfl, rfl, ?_, ?_⟩
  · simp only [PDate.day_mk]
    unfold weekdayDaysIn
    rw [Finset.mem_filter, Finset.mem_Icc]
    refine ⟨⟨by omega, by omega⟩, ?_⟩
    simp only [PDate.weekday, PDate.toOrdinal, PDate.year_mk, PDate.month_mk,
      PDate.day_mk]
    omega
  · intro d hd
    simp only [PDate.day_mk]
    unfold weekdayDaysIn at hd
    rw [Finset.mem_filter, Finset.mem_Icc] at hd
    obtain ⟨⟨hd1, hd2⟩, hdw⟩ := hd
    simp only [PDate.weekday, PDate.toOrdinal, PDate.year_mk, PDate.month_mk,
      PDate.day_mk] at hdw
    omega

/-! ### Cache coherence -/

/-- The date a cache-missing evaluation computes for a key. -/
def specValue : CacheKey → PDate
  | .easter y => easterDate y
  | .nth y m w n => nthWeekdayDate y m w n
  | .last y m w => lastWeekdayDate y m w

/-- Every cache entry is what its key's evaluator computes on a miss.
This holds of the empty cache, is preserved by every evaluator, and the
cache persisted at the end of a run satisfies it. -/
def CacheGood (c : Cache) : Prop :=
  ∀ k v, cacheLookup c k = some v → v = specValue k

theorem cacheGood_nil : CacheGood ([] : Cache) := fun _ _ h => nomatch h

theorem cacheGood_insert (c : Cache) (k : CacheKey) (v : PDate)
    (hc : CacheGood c) (hv : v = specValue k) :
    CacheGood (cacheInsert c k v) := by
  intro k' v' h
  unfold cacheInsert cacheLookup at h
  by_cases he : k = k'
  · rw [if_pos he] at h
    subst he
    injection h with h2
    rw [← h2, hv]
  · rw [if_neg he] at h
    exact hc k' v' h

theorem get_easter_spec (y : Nat) (c : Cache) (hc : CacheGood c) :
    (get_easter_sunday y c).1 = easterDate y ∧
      CacheGood (get_easter_sunday y c).2 := by
  unfold get_easter_sunday
  cases hl : cacheLookup c (.easter y) with
  | none => exact ⟨rfl, cacheGood_insert c _ _ hc rfl⟩
  | some d => exact ⟨hc _ _ hl, hc⟩

theorem get_nth_spec (y m w n : Nat) (c : Cache) (hc : CacheGood c) :
    (get_nth_weekday y m w n c).1 = nthWeekdayDate y m w n ∧
      CacheGood (get_nth_weekday y m w n c).2 := by
  unfold get_nth_weekday
  cases hl : cacheLookup c (.nth y m w n) with
  | none => exact ⟨rfl, cacheGood_insert c _ _ hc rfl⟩
  | some d => exact ⟨hc _ _ hl, hc⟩

theorem get_last_spec (y m w : Nat) (c : Cache) (hc : CacheGood c) :
    (get_last_weekday y m w c).1 = lastWeekdayDate y m w ∧
      CacheGood (get_last_weekday y m w c).2 := by
  unfold get_last_weekday
  cases hl : cacheLookup c (.last y m w) with
  | none => exact ⟨rfl, cacheGood_insert c _ _ hc rfl⟩
  | some d => exact ⟨hc _ _ hl, hc⟩

/-- The date a federal rule resolves to, independent of any cache. -/
def fedPure (year : Nat) (holiday : FedRule) : Resolved :=
  match holiday.shape with
  | .fixed day => ⟨holiday.name, ⟨year, holiday.month, day⟩, none, none⟩
  | .last weekday => ⟨holiday.name, lastWeekdayDate year holiday.month weekday, none, none⟩
  | .nth weekday nth =>
      ⟨holiday.name, nthWeekdayDate year holiday.month weekday nth, none, none⟩

/-- The date a calculated rule resolves to, independent of any cache. -/
def calcPure (year : Nat) (holiday : CalcRule) : Resolved :=
  match holiday.type with
  | .easter => ⟨holiday.name, easterDate year, holiday.description, holiday.reminderDays⟩
  | .nthWeekday month weekday nth =>
      ⟨holiday.name, nthWeekdayDate year month weekday nth,
        holiday.description, holiday.reminderDays⟩

/-- The assembled multi-year list, written without the cache. -/
def assemblePure (cfg : HolidayConfig) : List Nat → List Resolved
  | [] => []
  | y :: ys =>
      cfg.federal.map (fedPure y) ++ manualHolidaysForYear y cfg.manual ++
        cfg.calculated.map (calcPure y) ++ assemblePure cfg ys

theorem fedStep_spec (year : Nat) (f : FedRule) (p : List Resolved × Cache)
    (hp : CacheGood p.2) :
    (fedStep year p f).1 = p.1 ++ [fedPure year f] ∧
      CacheGood (fedStep year p f).2 := by
  obtain ⟨name, month, shape⟩ := f
  cases shape with
  | fixed day => exact ⟨rfl, hp⟩
  | last wd =>
      obtain ⟨h1, h2⟩ := get_last_spec year month wd p.2 hp
      refine ⟨?_, h2⟩
      show p.1 ++ [⟨name, (get_last_weekday year month wd p.2).1, none, none⟩] =
        p.1 ++ [⟨name, lastWeekdayDate year month wd, none, none⟩]
      rw [h1]
  | nth wd n =>
      obtain ⟨h1, h2⟩ := get_nth_spec year month wd n p.2 hp
      refine ⟨?_, h2⟩
      show p.1 ++ [⟨name, (get_nth_weekday year month wd n p.2).1, none, none⟩] =
        p.1 ++ [⟨name, nthWeekdayDate year month wd n, none, none⟩]
      rw [h1]

theorem foldl_fedStep (year : Nat) (fs : List FedRule) :
    ∀ (p : List Resolved × Cache), CacheGood p.2 →
      (fs.foldl (fedStep year) p).1 = p.1 ++ fs.map (fedPure year) ∧
        CacheGood (fs.foldl (fedStep year) p).2 := by
  induction fs with
  | nil => intro p hp; exact ⟨by simp, hp⟩
  | cons f t ih =>
      intro p hp
      rw [List.foldl_cons]
      obtain ⟨ha, hb⟩ := fedStep_spec year f p hp
      obtain ⟨ih1, ih2⟩ := ih (fedStep year p f) hb
      refine ⟨?_, ih2⟩
      rw [ih1, ha, List.map_cons]
      simp

theorem get_federal_eq (year : Nat) (federal : List FedRule) (c : Cache)
    (hc : CacheGood c) :
    get_federal_holidays year federal c = federal.map (fedPure year) := by
  unfold get_federal_holidays
  have h := (foldl_fedStep year federal ([], c) hc).1
  simpa using h

theorem calcStep_spec (year : Nat) (f : CalcRule) (p : List Resolved × Cache)
    (hp : CacheGood p.2) :
    (calcStep year p f).1 = p.1 ++ [calcPure year f] ∧
      CacheGood (calcStep year p f).2 := by
  obtain ⟨name, ty, desc, rem⟩ := f
  cases ty with
  | easter =>
      obtain ⟨h1, h2⟩ := get_easter_spec year p.2 hp
      refine ⟨?_, h2⟩
      show p.1 ++ [⟨name, (get_easter_sunday year p.2).1, desc, rem⟩] =
        p.1 ++ [⟨name, easterDate year, desc, rem⟩]
      rw [h1]
  | nthWeekday m wd n =>
      obtain ⟨h1, h2⟩ := get_nth_spec year m wd n p.2 hp
      refine ⟨?_, h2⟩
      show p.1 ++ [⟨name, (get_nth_weekday year m wd n p.2).1, desc, rem⟩] =
        p.1 ++ [⟨name, nthWeekdayDate year m wd n, desc, rem⟩]
      rw [h1]

theorem foldl_calcStep (year : Nat) (cs : List CalcRule) :
    ∀ (p : List Resolved × Cache), CacheGood p.2 →
      (cs.foldl (calcStep year) p).1 = p.1 ++ cs.map (calcPure year) ∧
        CacheGood (cs.foldl (calcStep year) p).2 := by
  induction cs with
  | nil => intro p hp; exact ⟨by simp, hp⟩
  | cons f t ih =>
      intro p hp
      rw [List.foldl_cons]
      obtain ⟨ha, hb⟩ := calcStep_spec year f p hp
      obtain ⟨ih1, ih2⟩ := ih (calcStep year p f) hb
      refine ⟨?_, ih2⟩
      rw [ih1, ha, List.map_cons]
      simp

theorem calcHolidays_spec (year : Nat) (cs : List CalcRule) (c : Cache)
    (hc : CacheGood c) :
    (calcHolidaysForYear year cs c).1 = cs.map (calcPure year) ∧
      CacheGood (calcHolidaysForYear year cs c).2 := by
  unfold calcHolidaysForYear
  obtain ⟨h1, h2⟩ := foldl_calcStep year cs ([], c) hc
  exact ⟨by simpa using h1, h2⟩

theorem assembleYears_spec (cfg : HolidayConfig) (disk : Cache)
    (hdisk : CacheGood disk) :
    ∀ (ys : List Nat) (mem : Cache), CacheGood mem →
      (assembleYears cfg disk ys mem).1 = assemblePure cfg ys ∧
        CacheGood (assembleYears cfg disk ys mem).2 := by
  intro ys
  induction ys with
  | nil => intro mem hm; exact ⟨rfl, hm⟩
  | cons y t ih =>
      intro mem hm
      obtain ⟨hc1, hc2⟩ := calcHolidays_spec y cfg.calculated mem hm
      obtain ⟨ht1, ht2⟩ := ih _ hc2
      constructor
      · simp only [assembleYears, assemblePure]
        rw [get_federal_eq y cfg.federal disk hdisk, hc1, ht1]
      · simp only [assembleYears]
        exact ht2

/-! ### The event-emission loop -/

/-- The `(summary, dtstart)` key of an emitted event. -/
def keyE (e : PEvent) : String × PDate := (e.summary, e.dtstart)

theorem keyE_buildEvent (h : Resolved) : keyE (buildEvent h) = keyOf h := rfl

theorem emitLoop_cons_invalid (a : List String) (h : Resolved)
    (t : List Resolved) (seen : List (String × PDate))
    (hv : ¬ h.date.validb) :
    emitLoop a (h :: t) seen = emitLoop a t seen := by
  simp [emitLoop, hv]

theorem emitLoop_cons_dup (a : List String) (h : Resolved)
    (t : List Resolved) (seen : List (String × PDate))
    (hv : h.date.validb) (hs : keyOf h ∈ seen) :
    emitLoop a (h :: t) seen =
      ((emitLoop a t seen).1, keyOf h :: (emitLoop a t seen).2.1,
        (emitLoop a t seen).2.2) := by
  simp [emitLoop, hv, hs]

theorem emitLoop_cons_fresh (a : List String) (h : Resolved)
    (t : List Resolved) (seen : List (String × PDate))
    (hv : h.date.validb) (hs : keyOf h ∉ seen) :
    emitLoop a (h :: t) seen =
      ((if h.name ∈ a then buildEvent h :: (emitLoop a t (keyOf h :: seen)).1
        else (emitLoop a t (keyOf h :: seen)).1),
       (emitLoop a t (keyOf h :: seen)).2.1,
       (emitLoop a t (keyOf h :: seen)).2.2) := by
  simp [emitLoop, hv, hs]

/-- The emitted events carry pairwise-distinct `(name, date)` keys, and
none of them carries a key from the initial seen-set. -/
theorem emitLoop_nodup (approved : List String) :
    ∀ (hs : List Resolved) (seen : List (String × PDate)),
      ((emitLoop approved hs seen).1.map keyE).Nodup ∧
        ∀ e ∈ (emitLoop approved hs seen).1, keyE e ∉ seen := by
  intro hs
  induction hs with
  | nil =>
      intro seen
      constructor <;> simp [emitLoop]
  | cons h t ih =>
      intro seen
      by_cases hv : h.date.validb
      · by_cases hseen : keyOf h ∈ seen
        · rw [emitLoop_cons_dup approved h t seen hv hseen]
          exact ih seen
        · rw [emitLoop_cons_fresh approved h t seen hv hseen]
          obtain ⟨ihn, ihs⟩ := ih (keyOf h :: seen)
          by_cases happ : h.name ∈ approved
          · rw [if_pos happ]
            constructor
            · simp only [List.map_cons, keyE_buildEvent]
              rw [List.nodup_cons]
              refine ⟨?_, ihn⟩
              intro hmem
              obtain ⟨e, he, hke⟩ := List.mem_map.mp hmem
              exact (ihs e he) (hke ▸ List.mem_cons_self _ _)
            · intro e he
              rcases List.mem_cons.mp he with rfl | he'
              · simpa [keyE_buildEvent] using hseen
              · intro hcon
                exact (ihs e he') (List.mem_cons_of_mem _ hcon)
          · rw [if_neg happ]
            refine ⟨ihn, ?_⟩
            intro e he hcon
            exact (ihs e he) (List.mem_cons_of_mem _ hcon)
      · rw [emitLoop_cons_invalid approved h t seen hv]
        exact ih seen

/-- Every emitted event is built from the first valid entry of the input
list carrying its `(name, date)` key; that entry is approved and its key
is not in the initial seen-set. -/
theorem emitLoop_source (approved : List String) :
    ∀ (hs : List Resolved) (seen : List (String × PDate)),
      ∀ e ∈ (emitLoop approved hs seen).1,
        ∃ pre h post, hs = pre ++ h :: post ∧ e = buildEvent h ∧
          h.name ∈ approved ∧ h.date.validb ∧ keyOf h ∉ seen ∧
          ∀ g ∈ pre, g.date.validb → keyOf g ≠ keyOf h := by
  intro hs
  induction hs with
  | nil =>
      intro seen e he
      simp [emitLoop] at he
  | cons h t ih =>
      intro seen e he
      by_cases hv : h.date.validb
      · by_cases hseen : keyOf h ∈ seen
        · rw [emitLoop_cons_dup approved h t seen hv hseen] at he
          obtain ⟨pre, g, post, hsplit, hbe, happ, hgv, hgs, hpre⟩ := ih seen e he
          refine ⟨h :: pre, g, post, by rw [hsplit, List.cons_append], hbe, happ, hgv, hgs, ?_⟩
          intro x hx hxv
          rcases List.mem_cons.mp hx with rfl | hx'
          · intro hcon
            exact hgs (hcon ▸ hseen)
          · exact hpre x hx' hxv
        · rw [emitLoop_cons_fresh approved h t seen hv hseen] at he
          by_cases happ : h.name ∈ approved
          · rw [if_pos happ] at he
            rcases List.mem_cons.mp he with rfl | he'
            · refine ⟨[], h, t, rfl, rfl, happ, hv, hseen, ?_⟩
              intro g hg
              exact absurd hg (List.not_mem_nil g)
            · obtain ⟨pre, g, post, hsplit, hbe, happ', hgv, hgs, hpre⟩ :=
                ih (keyOf h :: seen) e he'
              refine ⟨h :: pre, g, post, by rw [hsplit, List.cons_append], hbe, happ', hgv,
                fun hc => hgs (List.mem_cons_of_mem _ hc), ?_⟩
              intro x hx hxv
              rcases List.mem_cons.mp hx with rfl | hx'
              · intro hcon
                exact hgs (hcon ▸ List.mem_cons_self _ _)
              · exact hpre x hx' hxv
          · rw [if_neg happ] at he
            obtain ⟨pre, g, post, hsplit, hbe, happ', hgv, hgs, hpre⟩ :=
              ih (keyOf h :: seen) e he
            refine ⟨h :: pre, g, post, by rw [hsplit, List.cons_append], hbe, happ', hgv,
              fun hc => hgs (List.mem_cons_of_mem _ hc), ?_⟩
            intro x hx hxv
            rcases List.mem_cons.mp hx with rfl | hx'
            · intro hcon
              exact hgs (hcon ▸ List.mem_cons_self _ _)
            · exact hpre x hx' hxv
      · rw [emitLoop_cons_invalid approved h t seen hv] at he
        obtain ⟨pre, g, post, hsplit, hbe, happ, hgv, hgs, hpre⟩ := ih seen e he
        refine ⟨h :: pre, g, post, by rw [hsplit, List.cons_append], hbe, happ, hgv, hgs, ?_⟩
        intro x hx hxv
        rcases List.mem_cons.mp hx with rfl | hx'
        · exact absurd hxv hv
        · exact hpre x hx' hxv

/-- A valid entry whose key already occurred — in the seen-set or on an
earlier valid entry — is recorded in the duplicate warnings. -/
theorem emitLoop_dup_warn (approved : List String) :
    ∀ (hs : List Resolved) (seen : List (String × PDate))
      (pre : List Resolved) (h : Resolved) (post : List Resolved),
      hs = pre ++ h :: post → h.date.validb →
      (keyOf h ∈ seen ∨ ∃ g ∈ pre, g.date.validb ∧ keyOf g = keyOf h) →
      keyOf h ∈ (emitLoop approved hs seen).2.1 := by
  intro hs
  induction hs with
  | nil =>
      intro seen pre h post hsplit _ _
      cases pre <;> simp at hsplit
  | cons x t ih =>
      intro seen pre h post hsplit hv hdup
      cases pre with
      | nil =>
          simp only [List.nil_append] at hsplit
          injection hsplit with hx ht
          subst hx
          subst ht
          rcases hdup with hseen | ⟨g, hg, _⟩
          · rw [emitLoop_cons_dup approved x t seen hv hseen]
            exact List.mem_cons_self _ _
          · exact absurd hg (List.not_mem_nil g)
      | cons g pre' =>
          simp only [List.cons_append] at hsplit
          injection hsplit with hx ht
          subst hx
          by_cases hgv : x.date.validb
          · by_cases hgs : keyOf x ∈ seen
            · rw [emitLoop_cons_dup approved x t seen hgv hgs]
              have hmem : keyOf h ∈ (emitLoop approved t seen).2.1 := by
                apply ih seen pre' h post ht hv
                rcases hdup with hseen | ⟨g', hg', hv', hk'⟩
                · exact Or.inl hseen
                · rcases List.mem_cons.mp hg' with rfl | hg''
                  · exact Or.inl (hk' ▸ hgs)
                  · exact Or.inr ⟨g', hg'', hv', hk'⟩
              exact List.mem_cons_of_mem _ hmem
            · rw [emitLoop_cons_fresh approved x t seen hgv hgs]
              apply ih (keyOf x :: seen) pre' h post ht hv
              rcases hdup with hseen | ⟨g', hg', hv', hk'⟩
              · exact Or.inl (List.mem_cons_of_mem _ hseen)
              · rcases List.mem_cons.mp hg' with rfl | hg''
                · exact Or.inl (hk' ▸ List.mem_cons_self _ _)
                · exact Or.inr ⟨g', hg'', hv', hk'⟩
          · rw [emitLoop_cons_invalid approved x t seen hgv]
            apply ih seen pre' h post ht hv
            rcases hdup with hseen | ⟨g', hg', hv', hk'⟩
            · exact Or.inl hseen
            · rcases List.mem_cons.mp hg' with rfl | hg''
              · exact absurd hv' hgv
              · exact Or.inr ⟨g', hg'', hv', hk'⟩

/-- Every valid, approved entry is represented: some emitted event
carries its `(name, date)` key (or the key was already seen). -/
theorem emitLoop_complete (approved : List String) :
    ∀ (hs : List Resolved) (seen : List (String × PDate)) (h : Resolved),
      h ∈ hs → h.date.validb → h.name ∈ approved →
      keyOf h ∈ seen ∨
        ∃ e ∈ (emitLoop approved hs seen).1, keyE e = keyOf h := by
  intro hs
  induction hs with
  | nil =>
      intro seen h hmem
      exact absurd hmem (List.not_mem_nil h)
  | cons x t ih =>
      intro seen h hmem hv happ
      by_cases hxv : x.date.validb
      · by_cases hxs : keyOf x ∈ seen
        · rw [emitLoop_cons_dup approved x t seen hxv hxs]
          rcases List.mem_cons.mp hmem with rfl | hmem'
          · exact Or.inl hxs
          · exact ih seen h hmem' hv happ
        · rw [emitLoop_cons_fresh approved x t seen hxv hxs]
          rcases List.mem_cons.mp hmem with rfl | hmem'
          · rw [if_pos happ]
            exact Or.inr ⟨buildEvent h, List.mem_cons_self _ _, rfl⟩
          · rcases ih (keyOf x :: seen) h hmem' hv happ with hin | ⟨e, he, hke⟩
            · rcases List.mem_cons.mp hin with heq | hin'
              · have hnames : x.name ∈ approved := by
                  have hfst : h.name = x.name := congrArg Prod.fst heq
                  rw [← hfst]
                  exact happ
                rw [if_pos hnames]
                exact Or.inr ⟨buildEvent x, List.mem_cons_self _ _, heq.symm⟩
              · exact Or.inl hin'
            · by_cases hxa : x.name ∈ approved
              · rw [if_pos hxa]
                exact Or.inr ⟨e, List.mem_cons_of_mem _ he, hke⟩
              · rw [if_neg hxa]
                exact Or.inr ⟨e, he, hke⟩
      · rw [emitLoop_cons_invalid approved x t seen hxv]
        rcases List.mem_cons.mp hmem with rfl | hmem'
        · exact absurd hv hxv
        · exact ih seen h hmem' hv happ

/-! ### The generate run -/

theorem generate_calendar_ok (s e : Nat) (dr vb : Bool) (cfg : HolidayConfig)
    (dc : Cache) (h1 : s ≤ e) (h2 : 1900 ≤ s) (h3 : e ≤ 2100) :
    generate_calendar s e dr vb cfg dc = .ok
      { events := (emitLoop cfg.approved
          (assembleYears cfg dc (yearRange s e) dc).1 []).1,
        dupWarnings := (emitLoop cfg.approved
          (assembleYears cfg dc (yearRange s e) dc).1 []).2.1,
        savedCache := (assembleYears cfg dc (yearRange s e) dc).2,
        wroteOutput := !dr } := by
  simp only [generate_calendar]
  rw [if_neg (by omega)]

theorem generate_calendar_err (s e : Nat) (dr vb : Bool) (cfg : HolidayConfig)
    (dc : Cache) (h : e < s ∨ s < 1900 ∨ 2100 < e) :
    generate_calendar s e dr vb cfg dc = .error .invalidRange := by
  simp only [generate_calendar]
  rw [if_pos (by omega)]

/-! ### Observance helpers -/

theorem weekday_prev_of_sat (d : PDate) (hval : d.validb) (h5 : d.weekday = 5) :
    d.prev.weekday = 4 := by
  have hne : ¬(d.year = 1 ∧ d.month = 1 ∧ d.day = 1) := by
    rintro ⟨e1, e2, e3⟩
    have hd : d = ⟨1, 1, 1⟩ := by
      cases d
      simp_all
    rw [hd] at h5
    exact absurd h5 (by decide)
  have ho := toOrdinal_prev d hval hne
  unfold PDate.weekday at h5 ⊢
  omega

theorem weekday_next_of_sun (d : PDate) (hval : d.validb) (h6 : d.weekday = 6) :
    d.next.weekday = 0 := by
  have ho := toOrdinal_next d hval
  unfold PDate.weekday at h6 ⊢
  omega

/-- A one-holiday configuration used to exercise the pipeline. -/
def sampleConfig : HolidayConfig :=
  { approved := ["Easter"], manual := [],
    calculated := [⟨"Easter", .easter, none, none⟩], federal := [] }

set_option maxRecDepth 4000 in
theorem easterDate_range : ∀ z : Nat, z < 201 →
    ((easterDate (1900 + z)).month = 3 ∧ 22 ≤ (easterDate (1900 + z)).day) ∨
    ((easterDate (1900 + z)).month = 4 ∧ (easterDate (1900 + z)).day ≤ 25) := by
  decide

/-! ### Claims -/

/-- C1: on a cache miss under the keys `easter_2025` / `easter_2026`, the
Easter evaluator returns April 20, 2025 for year 2025 and April 5, 2026
for year 2026 — the closed-form arithmetic, not a cached value, decides
the result. -/
theorem easter_2025_2026_correct :
    ∀ (c c' : Cache),
      cacheLookup c (.easter 2025) = none →
      cacheLookup c' (.easter 2026) = none →
      (get_easter_sunday 2025 c).1 = ⟨2025, 4, 20⟩ ∧
        (get_easter_sunday 2026 c').1 = ⟨2026, 4, 5⟩ := by
  intro c c' h1 h2
  unfold get_easter_sunday
  rw [h1, h2]
  exact ⟨(by decide : easterDate 2025 = ⟨2025, 4, 20⟩),
    (by decide : easterDate 2026 = ⟨2026, 4, 5⟩)⟩

theorem easter_2025_2026_correct_witness :
    (get_easter_sunday 2025 []).1 = ⟨2025, 4, 20⟩ ∧
      (get_easter_sunday 2026 []).1 = ⟨2026, 4, 5⟩ :=
  easter_2025_2026_correct [] [] rfl rfl

/-- C2: for every year 1900 ≤ Y ≤ 2100 the date the Easter evaluator
computes on a cache miss falls between March 22 and April 25 inclusive. -/
theorem easter_in_march22_april25 :
    ∀ (y : Nat) (c : Cache), 1900 ≤ y → y ≤ 2100 →
      cacheLookup c (.easter y) = none →
      ((get_easter_sunday y c).1.month = 3 ∧ 22 ≤ (get_easter_sunday y c).1.day) ∨
      ((get_easter_sunday y c).1.month = 4 ∧ (get_easter_sunday y c).1.day ≤ 25) := by
  intro y c h1 h2 hmiss
  unfold get_easter_sunday
  rw [hmiss]
  have h := easterDate_range (y - 1900) (by omega)
  rw [show 1900 + (y - 1900) = y from by omega] at h
  exact h

theorem easter_in_march22_april25_witness :
    ((get_easter_sunday 2025 []).1.month = 3 ∧ 22 ≤ (get_easter_sunday 2025 []).1.day) ∨
    ((get_easter_sunday 2025 []).1.month = 4 ∧ (get_easter_sunday 2025 []).1.day ≤ 25) :=
  easter_in_march22_april25 2025 [] (by decide) (by decide) rfl

/-- C3: on a cache miss `get_nth_weekday` returns the nth occurrence of
the weekday in the month — the day `(weekday - firstDayWeekday + 7) mod 7
+ 1 + 7 (nth - 1)` — whenever the month has at least `nth` such
occurrences; in particular 2025-01-20 for (2025, 1, Monday, 3) and
2025-11-27 for (2025, 11, Thursday, 4). -/
theorem nth_weekday_correct :
    (∀ (y m w n : Nat) (c : Cache),
        1 ≤ y → 1 ≤ m → m ≤ 12 → w ≤ 6 → 1 ≤ n →
        n ≤ (weekdayDaysIn y m w).card →
        cacheLookup c (.nth y m w n) = none →
        (get_nth_weekday y m w n c).1 =
            ⟨y, m, firstOffset y m w + 1 + 7 * (n - 1)⟩ ∧
          IsNthWeekdayOf y m w n (get_nth_weekday y m w n c).1) ∧
      (get_nth_weekday 2025 1 0 3 []).1 = ⟨2025, 1, 20⟩ ∧
      (get_nth_weekday 2025 11 3 4 []).1 = ⟨2025, 11, 27⟩ := by
  refine ⟨?_, by decide, by decide⟩
  intro y m w n c hy hm1 hm2 hw hn hcount hmiss
  have heq : (get_nth_weekday y m w n c).1 = nthWeekdayDate y m w n := by
    unfold get_nth_weekday
    rw [hmiss]
  rw [heq]
  exact ⟨nthWeekdayDate_day y m w n hw hn hcount,
    nthWeekday_is_nth y m w n hw hn hcount⟩

theorem nth_weekday_correct_witness :
    (get_nth_weekday 2025 1 0 3 []).1 =
        ⟨2025, 1, firstOffset 2025 1 0 + 1 + 7 * (3 - 1)⟩ ∧
      IsNthWeekdayOf 2025 1 0 3 (get_nth_weekday 2025 1 0 3 []).1 :=
  nth_weekday_correct.1 2025 1 0 3 [] (by decide) (by decide) (by decide)
    (by decide) (by decide) (by decide) rfl

/-- C4: on a cache miss `get_last_weekday` returns the last occurrence of
the weekday in the month, via the last calendar day of the month (1st of
the following month, with December→January rollover, minus one day)
stepped back `(lastDayWeekday - weekday + 7) mod 7` days; in particular
2025-05-26 for (2025, 5, Monday). -/
theorem last_weekday_correct :
    (∀ (y m w : Nat) (c : Cache),
        1 ≤ y → 1 ≤ m → m ≤ 12 → w ≤ 6 →
        cacheLookup c (.last y m w) = none →
        IsLastWeekdayOf y m w (get_last_weekday y m w c).1) ∧
      (get_last_weekday 2025 5 0 []).1 = ⟨2025, 5, 26⟩ := by
  refine ⟨?_, by decide⟩
  intro y m w c hy hm1 hm2 hw hmiss
  have heq : (get_last_weekday y m w c).1 = lastWeekdayDate y m w := by
    unfold get_last_weekday
    rw [hmiss]
  rw [heq]
  exact lastWeekday_is_last y m w hm1 hm2 hw

theorem last_weekday_correct_witness :
    IsLastWeekdayOf 2025 5 0 (get_last_weekday 2025 5 0 []).1 :=
  last_weekday_correct.1 2025 5 0 [] (by decide) (by decide) (by decide)
    (by decide) rfl

/-- C5: observance adjustment is applied to the emitted date iff the
holiday name is exactly one of New Year's Day, Independence Day,
Veterans Day, Christmas Day; for those, Saturday shifts to the preceding
Friday, Sunday to the following Monday, weekdays are unchanged; all
other names are never shifted. -/
theorem observance_correct :
    (∀ (name : String) (d : PDate), d.validb →
        name ∈ observanceNames →
        (d.weekday = 5 → observedDate name d = d.prev ∧ d.prev.weekday = 4) ∧
        (d.weekday = 6 → observedDate name d = d.next ∧ d.next.weekday = 0) ∧
        (d.weekday < 5 → observedDate name d = d)) ∧
      (∀ (name : String) (d : PDate), name ∉ observanceNames →
        observedDate name d = d) ∧
      observanceNames = ["New Year's Day", "Independence Day", "Veterans Day",
        "Christmas Day"] := by
  refine ⟨?_, ?_, rfl⟩
  · intro name d hval hmem
    refine ⟨?_, ?_, ?_⟩
    · intro h5
      refine ⟨?_, weekday_prev_of_sat d hval h5⟩
      unfold observedDate adjust_for_observance
      rw [if_pos hmem, if_pos h5]
    · intro h6
      refine ⟨?_, weekday_next_of_sun d hval h6⟩
      unfold observedDate adjust_for_observance
      rw [if_pos hmem, if_neg (by omega), if_pos h6]
    · intro hlt
      unfold observedDate adjust_for_observance
      rw [if_pos hmem, if_neg (by omega), if_neg (by omega)]
  · intro name d hmem
    unfold observedDate
    rw [if_neg hmem]

theorem observance_correct_witness :
    observedDate "Independence Day" ⟨2026, 7, 4⟩ = (PDate.mk 2026 7 4).prev ∧
      (PDate.mk 2026 7 4).prev.weekday = 4 :=
  (observance_correct.1 "Independence Day" ⟨2026, 7, 4⟩ (by decide)
    (by decide)).1 (by decide)

/-- C6: generation fails with InvalidRange exactly when start > end,
start < 1900 or end > 2100; the failing branch is taken before the
holiday file or cache influences anything, and every in-range pair
proceeds over exactly the years start..end (no clamping). -/
theorem invalid_range_iff :
    (∀ (s e : Nat) (dr vb : Bool) (cfg : HolidayConfig) (dc : Cache),
        generate_calendar s e dr vb cfg dc = .error .invalidRange ↔
          (e < s ∨ s < 1900 ∨ 2100 < e)) ∧
      (∀ (s e : Nat) (dr vb : Bool) (cfg cfg' : HolidayConfig) (dc dc' : Cache),
        (e < s ∨ s < 1900 ∨ 2100 < e) →
        generate_calendar s e dr vb cfg dc = generate_calendar s e dr vb cfg' dc') ∧
      (∀ (s e : Nat) (dr vb : Bool) (cfg : HolidayConfig) (dc : Cache),
        s ≤ e → 1900 ≤ s → e ≤ 2100 →
        generate_calendar s e dr vb cfg dc = .ok
          { events := (emitLoop cfg.approved
              (assembleYears cfg dc (yearRange s e) dc).1 []).1,
            dupWarnings := (emitLoop cfg.approved
              (assembleYears cfg dc (yearRange s e) dc).1 []).2.1,
            savedCache := (assembleYears cfg dc (yearRange s e) dc).2,
            wroteOutput := !dr }) := by
  refine ⟨?_, ?_, ?_⟩
  · intro s e dr vb cfg dc
    constructor
    · intro h
      by_contra hcon
      push_neg at hcon
      rw [generate_calendar_ok s e dr vb cfg dc (by omega) (by omega)
        (by omega)] at h
      exact Except.noConfusion h
    · intro h
      exact generate_calendar_err s e dr vb cfg dc h
  · intro s e dr vb cfg cfg' dc dc' h
    rw [generate_calendar_err s e dr vb cfg dc h,
      generate_calendar_err s e dr vb cfg' dc' h]
  · intro s e dr vb cfg dc h1 h2 h3
    exact generate_calendar_ok s e dr vb cfg dc h1 h2 h3

theorem invalid_range_iff_witness :
    generate_calendar 2026 2025 false false sampleConfig [] =
        .error .invalidRange ∧
      generate_calendar 1800 2025 false false sampleConfig [] =
        .error .invalidRange :=
  ⟨(invalid_range_iff.1 2026 2025 false false sampleConfig []).mpr
      (by omega),
   (invalid_range_iff.1 1800 2025 false false sampleConfig []).mpr
      (by omega)⟩

/-- C7: the emitted events carry pairwise-distinct (name, date) keys;
each event comes from the first valid entry with its key; a later entry
repeating an earlier key is dropped with a recorded warning; and every
valid approved entry is still represented (processing continues past
duplicates). -/
theorem dedup_invariant :
    ∀ (approved : List String) (hs : List Resolved),
      ((emitLoop approved hs []).1.map keyE).Nodup ∧
      (∀ e ∈ (emitLoop approved hs []).1,
        ∃ pre h post, hs = pre ++ h :: post ∧ e = buildEvent h ∧
          ∀ g ∈ pre, g.date.validb → keyOf g ≠ keyOf h) ∧
      (∀ (pre : List Resolved) (h : Resolved) (post : List Resolved),
        hs = pre ++ h :: post → h.date.validb →
        (∃ g ∈ pre, g.date.validb ∧ keyOf g = keyOf h) →
        keyOf h ∈ (emitLoop approved hs []).2.1) ∧
      (∀ h ∈ hs, h.date.validb → h.name ∈ approved →
        ∃ e ∈ (emitLoop approved hs []).1, keyE e = keyOf h) := by
  intro approved hs
  refine ⟨(emitLoop_nodup approved hs []).1, ?_, ?_, ?_⟩
  · intro e he
    obtain ⟨pre, h, post, hsplit, hbe, _, _, _, hpre⟩ :=
      emitLoop_source approved hs [] e he
    exact ⟨pre, h, post, hsplit, hbe, hpre⟩
  · intro pre h post hsplit hv hdup
    exact emitLoop_dup_warn approved hs [] pre h post hsplit hv (Or.inr hdup)
  · intro h hmem hv happ
    rcases emitLoop_complete approved hs [] h hmem hv happ with hin | hex
    · exact absurd hin (List.not_mem_nil _)
    · exact hex

theorem dedup_invariant_witness :
    ("Foo", (⟨2025, 1, 1⟩ : PDate)) ∈
      (emitLoop ["Foo"]
        [⟨"Foo", ⟨2025, 1, 1⟩, none, none⟩,
         ⟨"Foo", ⟨2025, 1, 1⟩, none, none⟩] []).2.1 :=
  (dedup_invariant ["Foo"]
      [⟨"Foo", ⟨2025, 1, 1⟩, none, none⟩,
       ⟨"Foo", ⟨2025, 1, 1⟩, none, none⟩]).2.2.1
    [⟨"Foo", ⟨2025, 1, 1⟩, none, none⟩] ⟨"Foo", ⟨2025, 1, 1⟩, none, none⟩ []
    rfl (by decide)
    ⟨⟨"Foo", ⟨2025, 1, 1⟩, none, none⟩, List.mem_singleton.mpr rfl,
      by decide, rfl⟩

/-- C8: assembly is cache-transparent: the resolved list from an empty
cache equals the one from any coherent cache — in particular from the
cache persisted by a previous run on the same inputs — and the persisted
cache is coherent, so running generation twice yields the same resolved
entries. -/
theorem cache_transparent :
    ∀ (cfg : HolidayConfig) (s e : Nat), s ≤ e → 1900 ≤ s → e ≤ 2100 →
      ((assembleYears cfg (assembleYears cfg [] (yearRange s e) []).2
          (yearRange s e) (assembleYears cfg [] (yearRange s e) []).2).1 =
        (assembleYears cfg [] (yearRange s e) []).1) ∧
      (∀ c : Cache, CacheGood c →
        (assembleYears cfg c (yearRange s e) c).1 =
          (assembleYears cfg [] (yearRange s e) []).1) ∧
      CacheGood (assembleYears cfg [] (yearRange s e) []).2 := by
  intro cfg s e h1 h2 h3
  have hbase := assembleYears_spec cfg [] cacheGood_nil (yearRange s e) []
    cacheGood_nil
  refine ⟨?_, ?_, hbase.2⟩
  · have hsecond := assembleYears_spec cfg _ hbase.2 (yearRange s e) _ hbase.2
    rw [hsecond.1, hbase.1]
  · intro c hc
    have hrun := assembleYears_spec cfg c hc (yearRange s e) c hc
    rw [hrun.1, hbase.1]

theorem cache_transparent_witness :
    (assembleYears sampleConfig
        (assembleYears sampleConfig [] (yearRange 2025 2025) []).2
        (yearRange 2025 2025)
        (assembleYears sampleConfig [] (yearRange 2025 2025) []).2).1 =
      (assembleYears sampleConfig [] (yearRange 2025 2025) []).1 :=
  (cache_transparent sampleConfig 2025 2025 (by decide) (by decide)
    (by decide)).1

/-- C9: an emitted holiday whose rule carries reminder_days r > 0 gets
exactly one alarm, a DISPLAY alarm triggering r days before the start
date whose message names the holiday; a holiday without reminder_days
gets no alarm; every emitted event is built by this constructor. -/
theorem reminder_alarm_correct :
    (∀ (h : Resolved) (r : Nat), h.reminderDays = some r → 0 < r →
        (buildEvent h).alarms =
            [⟨-(r : Int), "DISPLAY", "Reminder: " ++ h.name ++ " is tomorrow"⟩] ∧
          (buildEvent h).alarms.length = 1 ∧ (buildEvent h).dtstart = h.date) ∧
      (∀ h : Resolved, h.reminderDays = none → (buildEvent h).alarms = []) ∧
      (∀ (approved : List String) (hs : List Resolved),
        ∀ e ∈ (emitLoop approved hs []).1, ∃ h ∈ hs, e = buildEvent h) := by
  refine ⟨?_, ?_, ?_⟩
  · intro h r hrem hpos
    unfold buildEvent
    rw [hrem]
    exact ⟨rfl, rfl, rfl⟩
  · intro h hrem
    unfold buildEvent
    rw [hrem]
  · intro approved hs e he
    obtain ⟨pre, h, post, hsplit, hbe, _, _, _, _⟩ :=
      emitLoop_source approved hs [] e he
    refine ⟨h, ?_, hbe⟩
    rw [hsplit]
    exact List.mem_append_right _ (List.mem_cons_self _ _)

theorem reminder_alarm_correct_witness :
    (buildEvent ⟨"Festivus", ⟨2025, 12, 23⟩, none, some 2⟩).alarms =
        [⟨-((2 : Nat) : Int), "DISPLAY",
          "Reminder: " ++ (Resolved.mk "Festivus" ⟨2025, 12, 23⟩ none
            (some 2)).name ++ " is tomorrow"⟩] ∧
      (buildEvent ⟨"Festivus", ⟨2025, 12, 23⟩, none, some 2⟩).alarms.length = 1 ∧
      (buildEvent ⟨"Festivus", ⟨2025, 12, 23⟩, none, some 2⟩).dtstart =
        (Resolved.mk "Festivus" ⟨2025, 12, 23⟩ none (some 2)).date :=
  reminder_alarm_correct.1 ⟨"Festivus", ⟨2025, 12, 23⟩, none, some 2⟩ 2 rfl
    (by decide)

/-- C10: with a valid range, a dry run still reaches save_cache — the
result records the fully updated cache — suppresses only the artifact
write, and reports success; the non-dry run differs from it only in the
write flag. -/
theorem dry_run_saves_cache :
    ∀ (s e : Nat) (vb : Bool) (cfg : HolidayConfig) (dc : Cache),
      s ≤ e → 1900 ≤ s → e ≤ 2100 →
      ∃ r : GenResult,
        generate_calendar s e true vb cfg dc = .ok r ∧
        r.wroteOutput = false ∧
        r.savedCache = (assembleYears cfg dc (yearRange s e) dc).2 ∧
        generate_calendar s e false vb cfg dc =
          .ok { r with wroteOutput := true } := by
  intro s e vb cfg dc h1 h2 h3
  refine ⟨_, generate_calendar_ok s e true vb cfg dc h1 h2 h3, rfl, rfl, ?_⟩
  rw [generate_calendar_ok s e false vb cfg dc h1 h2 h3]
  rfl

theorem dry_run_saves_cache_witness :
    ∃ r : GenResult,
      generate_calendar 2025 2025 true false sampleConfig [] = .ok r ∧
      r.wroteOutput = false ∧
      r.savedCache = (assembleYears sampleConfig [] (yearRange 2025 2025) []).2 ∧
      generate_calendar 2025 2025 false false sampleConfig [] =
        .ok { r with wroteOutput := true } :=
  dry_run_saves_cache 2025 2025 false sampleConfig [] (by decide) (by decide)
    (by decide)
